import Mathlib

/-!
Verification of the LTTB downsampling engine of the EV battery health
analyzer (`src/lib/data-sampling.ts` and companions).

The TypeScript code is shallowly embedded:

* JavaScript numbers are modelled as exact rationals (`ℚ`).  `NaN` /
  `Infinity` and double rounding are not modelled; no theorem below
  depends on the numeric value of a data point, only on indices,
  lengths and control flow, except where noted.
* Data records (`DataPoint`) are association lists of field name to
  value, in declaration order, matching `for ... in` enumeration order
  for non-integer keys.
* `new Date(s).getTime()` is modelled by an arbitrary parameter
  `parseDate : String → ℚ`; every theorem is proved for all such
  functions.
* Array indexing `data[j]` out of range yields `undefined` in JS; it is
  modelled by a default element.  Such accesses are only reachable for
  inputs of length < 3 on the sampling path, and no theorem below
  inspects the value obtained there.
* `throw` is modelled by an error result.
-/

namespace EVB

/-- A JavaScript value as it occurs in a data record: a number
(modelled as an exact rational), a string, or `undefined` for an
absent field. -/
inductive JSVal where
  | num (q : ℚ)
  | str (s : String)
  | undefined
  deriving DecidableEq, Repr

/-- A data record (`DataPoint` in the source): fields in declaration
order. -/
abbrev JSRec := List (String × JSVal)

/-- `key in record` (JS `in` operator). -/
def hasKey (r : JSRec) (k : String) : Bool :=
  r.any (fun p => p.1 == k)

/-- `record[key]`: the value of the field, `undefined` if absent. -/
def getField (r : JSRec) (k : String) : JSVal :=
  match r.find? (fun p => p.1 == k) with
  | some p => p.2
  | none => .undefined

/-- `typeof v === 'number'`. -/
def isNumber : JSVal → Bool
  | .num _ => true
  | _ => false

/-- `typeof xVal === 'string' ? new Date(xVal).getTime() : xVal`.
An `undefined` operand would be `NaN` in JS; it is modelled as `0`
(no proved statement depends on the resulting coordinate value). -/
def coerceX (parseDate : String → ℚ) : JSVal → ℚ
  | .str s => parseDate s
  | .num q => q
  | .undefined => 0

/-- A value used as a y-coordinate (`avgY += yVal` etc.).  Non-numeric
operands would give `NaN` (or string concatenation) in JS; modelled as
`0`, with the same caveat as `coerceX`. -/
def coerceY : JSVal → ℚ
  | .num q => q
  | _ => 0

/-- `triangleArea` from the source: area of the triangle spanned by
three points. -/
def triangleArea (pA pB pC : ℚ × ℚ) : ℚ :=
  |(pA.1 - pC.1) * (pB.2 - pA.2) - (pA.1 - pB.1) * (pC.2 - pA.2)| / 2

/-- The half-open integer interval `[a, b)` as a list, empty when
`b ≤ a`; the index sets scanned by the `for (let j = a; j < b; j++)`
loops. -/
def intRange (a b : ℤ) : List ℤ :=
  (List.range (b - a).toNat).map (fun (k : ℕ) => a + (k : ℤ))

/-- `data[j]` for a record array; out of range gives `undefined`,
modelled as the empty record. -/
def jsIndex (data : List JSRec) (j : ℤ) : JSRec :=
  if 0 ≤ j then data.getD j.toNat [] else []

/-- `bucketSize = (data.length - 2) / (threshold - 2)`. -/
def bucketSize (n t : ℤ) : ℚ :=
  ((n : ℚ) - 2) / ((t : ℚ) - 2)

/-- `Math.floor(i * bucketSize) + 1`, the first index of bucket `i`. -/
def bucketStart (w : ℚ) (i : ℤ) : ℤ :=
  ⌊(i : ℚ) * w⌋ + 1

/-- `Math.floor((i + 1) * bucketSize) + 1`, one past the last index of
bucket `i`. -/
def bucketEnd (w : ℚ) (i : ℤ) : ℤ :=
  ⌊((i : ℚ) + 1) * w⌋ + 1

/-- First index of the averaging range for bucket `i` (the next
bucket). -/
def avgRangeStart (w : ℚ) (i : ℤ) : ℤ :=
  ⌊((i : ℚ) + 1) * w⌋ + 1

/-- One past the last index of the averaging range for bucket `i`,
clipped to the data length. -/
def avgRangeEnd (w : ℚ) (n : ℤ) (i : ℤ) : ℤ :=
  min (⌊((i : ℚ) + 2) * w⌋ + 1) n

/-- The error outcomes of `downsampleLTTB`. -/
inductive SampleError where
  /-- `throw new Error('Could not determine y-axis key for sampling')`. -/
  | resolutionError
  /-- a `TypeError` from reading a property of `undefined` (reachable
  only for empty input on the sampling path). -/
  | typeError
  deriving DecidableEq, Repr

/-- Outcome of a call that may throw. -/
inductive SampleResult where
  | ok (out : List JSRec)
  | error (e : SampleError)
  deriving DecidableEq, Repr

/-- x-key resolution: `if (!xKey) xKey = 'time' in data[0] ? 'time' :
'timestamp'`. -/
def resolveXKey (d0 : JSRec) (xKey? : Option String) : String :=
  match xKey? with
  | some k => k
  | none => if hasKey d0 "time" then "time" else "timestamp"

/-- y-key resolution: the explicit key if supplied, else the first
field of `data[0]` in declaration order that is not the x-key and
holds a number. -/
def resolveYKey (d0 : JSRec) (xKey : String) (yKey? : Option String) : Option String :=
  match yKey? with
  | some k => some k
  | none => (d0.find? (fun p => decide (p.1 ≠ xKey) && isNumber p.2)).map (fun p => p.1)

/-- The `(x, y)` coordinates of `data[j]` under the resolved keys. -/
def pointAt (parseDate : String → ℚ) (data : List JSRec) (xKey yKey : String)
    (j : ℤ) : ℚ × ℚ :=
  (coerceX parseDate (getField (jsIndex data j) xKey),
   coerceY (getField (jsIndex data j) yKey))

/-- The average point of the next bucket, as computed by
`downsampleLTTB`: sums and a counter accumulated over the range, then
divided only when the counter is positive (else the sums, i.e.
`(0, 0)`, are used as-is). -/
def nextBucketAvg (parseDate : String → ℚ) (data : List JSRec) (xKey yKey : String)
    (s e : ℤ) : ℚ × ℚ :=
  let acc := (intRange s e).foldl
    (fun (acc : ℚ × ℚ × ℕ) j =>
      (acc.1 + (pointAt parseDate data xKey yKey j).1,
       acc.2.1 + (pointAt parseDate data xKey yKey j).2,
       acc.2.2 + 1))
    (0, 0, 0)
  if 0 < acc.2.2 then (acc.1 / (acc.2.2 : ℚ), acc.2.1 / (acc.2.2 : ℚ))
  else (acc.1, acc.2.1)

/-- The running-maximum loop shared by both samplers: over candidate
indices `l`, starting from an accumulator `(maxArea, maxAreaIndex)`,
replace the accumulator whenever the area at the candidate strictly
exceeds the running maximum (strict comparison, first wins on ties). -/
def maxAreaFold (area : ℤ → ℚ) (l : List ℤ) (acc0 : ℚ × ℤ) : ℚ × ℤ :=
  l.foldl (fun acc j => if area j > acc.1 then (area j, j) else acc) acc0

/-- The inner selection loop of `downsampleLTTB` for bucket `i`:
starting from `maxArea = -1`, `maxAreaIndex = bucketStart`, scan the
bucket and keep the index of the strictly largest triangle area
against the previously selected point and the next-bucket average. -/
def selectInBucket (parseDate : String → ℚ) (data : List JSRec) (xKey yKey : String)
    (w : ℚ) (n : ℤ) (prev i : ℤ) : ℤ :=
  let avgPt := nextBucketAvg parseDate data xKey yKey (avgRangeStart w i) (avgRangeEnd w n i)
  let prevPt := pointAt parseDate data xKey yKey prev
  (maxAreaFold
    (fun j => triangleArea prevPt (pointAt parseDate data xKey yKey j) avgPt)
    (intRange (bucketStart w i) (bucketEnd w i))
    (-1, bucketStart w i)).2

/-- The outer loop of `downsampleLTTB`, recorded as the list of
selected source indices (the source pushes `data[maxAreaIndex]`
directly; the pushed records are recovered below by mapping `jsIndex
data`).  `count` is the number of remaining buckets, `i` the current
bucket index, `prev` the previously selected index. -/
def lttbIndices (parseDate : String → ℚ) (data : List JSRec) (xKey yKey : String)
    (w : ℚ) (n : ℤ) : ℕ → ℤ → ℤ → List ℤ
  | 0, _, _ => []
  | count + 1, i, prev =>
    let sel := selectInBucket parseDate data xKey yKey w n prev i
    sel :: lttbIndices parseDate data xKey yKey w n count (i + 1) sel

/-- The full list of source indices emitted by `downsampleLTTB` on the
sampling path: index `0`, one index per bucket, index `n - 1`. -/
def dsIndices (parseDate : String → ℚ) (data : List JSRec) (xKey yKey : String)
    (t : ℤ) : List ℤ :=
  0 :: lttbIndices parseDate data xKey yKey (bucketSize data.length t) data.length
        (t - 2).toNat 0 0
    ++ [(data.length : ℤ) - 1]

/-- `downsampleLTTB(data, threshold, xKey?, yKey?)` from
`src/lib/data-sampling.ts`.  Passthrough when `data.length <=
threshold`; otherwise the threshold is clamped to at least 3, the keys
are resolved from `data[0]` (throwing when no y-key can be found, and
a `TypeError` when the input is empty so `data[0]` is `undefined`),
and the first point, one point per bucket and the last point are
emitted. -/
def downsampleLTTB (parseDate : String → ℚ) (data : List JSRec) (threshold : ℤ)
    (xKey? yKey? : Option String) : SampleResult :=
  if (data.length : ℤ) ≤ threshold then .ok data
  else
    match data with
    | [] => .error .typeError
    | d0 :: _ =>
      let t := max 3 threshold
      let xKey := resolveXKey d0 xKey?
      match resolveYKey d0 xKey yKey? with
      | none => .error .resolutionError
      | some yKey => .ok ((dsIndices parseDate data xKey yKey t).map (jsIndex data))

/-- `SamplingConfig` from the source. -/
structure SamplingConfig where
  threshold : ℤ
  targetPoints : ℤ
  deriving DecidableEq, Repr

/-- `DEFAULT_SAMPLING_CONFIG = { threshold: 500, targetPoints: 300 }`. -/
def DEFAULT_SAMPLING_CONFIG : SamplingConfig :=
  ⟨500, 300⟩

/-- `Partial<SamplingConfig>`: either field may be absent. -/
structure SamplingConfigPartial where
  threshold : Option ℤ
  targetPoints : Option ℤ
  deriving DecidableEq, Repr

/-- Spread merge `{ ...DEFAULT_SAMPLING_CONFIG, ...config }`: a field of
the partial configuration overrides the default when present. -/
def mergeConfig (c : SamplingConfigPartial) : SamplingConfig :=
  ⟨c.threshold.getD DEFAULT_SAMPLING_CONFIG.threshold,
   c.targetPoints.getD DEFAULT_SAMPLING_CONFIG.targetPoints⟩

/-- `adaptiveSample(data, config, xKey?, yKey?)`: passthrough up to the
merged threshold, else downsample to `targetPoints`. -/
def adaptiveSample (parseDate : String → ℚ) (data : List JSRec)
    (config : SamplingConfigPartial) (xKey? yKey? : Option String) : SampleResult :=
  let c := mergeConfig config
  if (data.length : ℤ) ≤ c.threshold then .ok data
  else downsampleLTTB parseDate data c.targetPoints xKey? yKey?

/-- `BatteryReading` from `src/lib/types.ts`. -/
structure BatteryReading where
  timestamp : String
  voltage : ℚ
  temperature : ℚ
  deriving DecidableEq, Repr

/-- `data[j]` for a `BatteryReading[]`; out of range gives `undefined`,
modelled by a default reading (never inspected by any theorem). -/
def jsIndexB (data : List BatteryReading) (j : ℤ) : BatteryReading :=
  if 0 ≤ j then data.getD j.toNat ⟨"", 0, 0⟩ else ⟨"", 0, 0⟩

/-- The inner selection loop of `sampleData` for bucket `i`: the
next-bucket average is computed with an unguarded division by
`avgRangeLength = avgRangeEnd - avgRangeStart`, and the running
maximum starts from `maxArea = -1`, `maxAreaPoint = 0`. -/
def selectInBucketSD (parseDate : String → ℚ) (data : List BatteryReading)
    (w : ℚ) (n : ℤ) (a i : ℤ) : ℤ :=
  let s := avgRangeStart w i
  let e := avgRangeEnd w n i
  let avgRangeLength : ℤ := e - s
  let sums := (intRange s e).foldl
    (fun (acc : ℚ × ℚ) j =>
      (acc.1 + parseDate (jsIndexB data j).timestamp,
       acc.2 + (jsIndexB data j).voltage))
    (0, 0)
  let avgX := sums.1 / (avgRangeLength : ℚ)
  let avgY := sums.2 / (avgRangeLength : ℚ)
  let pointAX := parseDate (jsIndexB data a).timestamp
  let pointAY := (jsIndexB data a).voltage
  (maxAreaFold
    (fun j => |(pointAX - avgX) * ((jsIndexB data j).voltage - pointAY) -
      (pointAX - parseDate (jsIndexB data j).timestamp) * (avgY - pointAY)| * 0.5)
    (intRange (bucketStart w i) (bucketEnd w i))
    (-1, 0)).2

/-- The outer loop of `sampleData`, recorded as the list of selected
source indices, with `a` the previously selected index. -/
def sampleIndices (parseDate : String → ℚ) (data : List BatteryReading)
    (w : ℚ) (n : ℤ) : ℕ → ℤ → ℤ → List ℤ
  | 0, _, _ => []
  | count + 1, i, a =>
    let sel := selectInBucketSD parseDate data w n a i
    sel :: sampleIndices parseDate data w n count (i + 1) sel

/-- `sampleData(data, threshold)` from the source: the hardcoded
`timestamp`/`voltage` LTTB sampler (no threshold clamping, no key
resolution, unguarded averaging division). -/
def sampleData (parseDate : String → ℚ) (data : List BatteryReading)
    (threshold : ℤ) : List BatteryReading :=
  if (data.length : ℤ) ≤ threshold then data
  else
    ((0 :: sampleIndices parseDate data (bucketSize data.length threshold) data.length
          (threshold - 2).toNat 0 0
      ++ [(data.length : ℤ) - 1]).map (jsIndexB data))

/-- `shouldShowDots(dataLength)` (called `shouldShowMarkers` in the
design spec): markers iff at most 100 points. -/
def shouldShowDots (dataLength : ℤ) : Bool :=
  dataLength ≤ 100

/-- `BatteryReading` viewed as a `DataPoint` record, fields in
declaration order. -/
def toRec (r : BatteryReading) : JSRec :=
  [("timestamp", .str r.timestamp), ("voltage", .num r.voltage),
   ("temperature", .num r.temperature)]

/-- Whether a call returned normally (did not throw). -/
def SampleResult.isOk : SampleResult → Bool
  | .ok _ => true
  | .error _ => false

/-- Trivial date parser used in the concrete instances below. -/
def pdZero : String → ℚ := fun _ => 0

/-- Concrete records with a numeric x-field named time. -/
def recTA : JSRec := [("time", .num 0), ("v", .num 1)]

def recTB : JSRec := [("time", .num 1), ("v", .num 5)]

def recTC : JSRec := [("time", .num 2), ("v", .num 3)]

def recTD : JSRec := [("time", .num 3), ("v", .num 0)]

def recTE : JSRec := [("time", .num 4), ("v", .num 2)]

/-- A two-element input, which exercises the degenerate clamped path. -/
def data2 : List JSRec := [recTA, recTB]

def data4 : List JSRec := [recTA, recTB, recTC, recTD]

def data5 : List JSRec := [recTA, recTB, recTC, recTD, recTE]

/-- Output of `downsampleLTTB pdZero data2 1 none none`. -/
def out3 : List JSRec := [recTA, recTB, recTB]

/-- Output of `downsampleLTTB pdZero data4 3 none none`. -/
def out4 : List JSRec := [recTA, recTB, recTD]

/-- Output of `adaptiveSample pdZero data5 ⟨some 4, some 3⟩ none none`. -/
def out5 : List JSRec := [recTA, recTB, recTE]

/-- Concrete records whose only fields besides time are two numeric
ones, for the first-numeric-field resolution scenario. -/
def recE0 : JSRec := [("time", .num 0), ("a", .num 1), ("b", .num 2)]

def recE1 : JSRec := [("time", .num 1), ("a", .num 4), ("b", .num 0)]

def recE2 : JSRec := [("time", .num 2), ("a", .num 2), ("b", .num 5)]

def recE3 : JSRec := [("time", .num 3), ("a", .num 7), ("b", .num 1)]

def dataE : List JSRec := [recE0, recE1, recE2, recE3]

/-- Concrete records with no time or timestamp field and one numeric
field. -/
def recV0 : JSRec := [("voltage", .num 1)]

def recV1 : JSRec := [("voltage", .num 2)]

def recV2 : JSRec := [("voltage", .num 7)]

def recV3 : JSRec := [("voltage", .num 3)]

def dataV : List JSRec := [recV0, recV1, recV2, recV3]

/-- Concrete battery readings for the refinement instance. -/
def brA : BatteryReading := ⟨"a", 1, 0⟩

def brB : BatteryReading := ⟨"b", 5, 0⟩

def brC : BatteryReading := ⟨"c", 3, 0⟩

def brD : BatteryReading := ⟨"d", 0, 0⟩

def dataB3 : List BatteryReading := [brA, brB, brC]

def dataB4 : List BatteryReading := [brA, brB, brC, brD]

end EVB

namespace EVB

/-! ### Basic facts about integer ranges -/

theorem mem_intRange {a b j : ℤ} : j ∈ intRange a b ↔ a ≤ j ∧ j < b := by
  simp only [intRange, List.mem_map, List.mem_range]
  constructor
  · rintro ⟨k, hk, rfl⟩
    omega
  · intro h
    exact ⟨(j - a).toNat, by omega, by omega⟩

theorem intRange_length (a b : ℤ) : (intRange a b).length = (b - a).toNat := by
  unfold intRange
  rw [List.length_map, List.length_range]

theorem intRange_self (a : ℤ) : intRange a a = [] := by
  unfold intRange
  rw [show (a - a).toNat = 0 by omega]
  rfl

theorem intRange_singleton (a : ℤ) : intRange a (a + 1) = [a] := by
  unfold intRange
  rw [show (a + 1 - a).toNat = 1 by omega]
  simp [List.range_succ]

theorem intRange_ne_nil {a b : ℤ} (h : a < b) : intRange a b ≠ [] := by
  have : a ∈ intRange a b := mem_intRange.mpr ⟨le_refl a, h⟩
  intro hnil
  rw [hnil] at this
  exact absurd this (List.not_mem_nil a)

theorem intRange_append {a b c : ℤ} (h1 : a ≤ b) (h2 : b ≤ c) :
    intRange a b ++ intRange b c = intRange a c := by
  unfold intRange
  rw [show (c - a).toNat = (b - a).toNat + (c - b).toNat by omega, List.range_add,
    List.map_append, List.map_map]
  congr 1
  apply List.map_congr_left
  intro k _
  simp only [Function.comp_apply]
  omega

/-! ### Facts about the floor-based bucket boundaries -/

theorem floor_mul_strict {w : ℚ} (hw : 1 < w) {i j : ℤ} (hij : i < j) :
    ⌊(i : ℚ) * w⌋ < ⌊(j : ℚ) * w⌋ := by
  have h1 : (i : ℚ) + 1 ≤ (j : ℚ) := by exact_mod_cast hij
  have h2 : (i : ℚ) * w + 1 ≤ (j : ℚ) * w := by nlinarith
  have h3 : ⌊(i : ℚ) * w + 1⌋ ≤ ⌊(j : ℚ) * w⌋ := Int.floor_le_floor h2
  rw [Int.floor_add_one] at h3
  omega

theorem floor_mul_mono {w : ℚ} (hw : 0 ≤ w) {i j : ℤ} (hij : i ≤ j) :
    ⌊(i : ℚ) * w⌋ ≤ ⌊(j : ℚ) * w⌋ := by
  apply Int.floor_le_floor
  have h : (i : ℚ) ≤ (j : ℚ) := by exact_mod_cast hij
  exact mul_le_mul_of_nonneg_right h hw

theorem one_lt_bucketSize {n t : ℤ} (h3 : 3 ≤ t) (hn : t < n) : 1 < bucketSize n t := by
  unfold bucketSize
  have h1 : (0 : ℚ) < (t : ℚ) - 2 := by
    have : (3 : ℚ) ≤ (t : ℚ) := by exact_mod_cast h3
    linarith
  rw [one_lt_div h1]
  have : (t : ℚ) < (n : ℚ) := by exact_mod_cast hn
  linarith

theorem bucketSize_nonneg {n t : ℤ} (h3 : 3 ≤ t) (hn : t < n) : 0 ≤ bucketSize n t :=
  le_of_lt (lt_trans one_pos (one_lt_bucketSize h3 hn))

theorem bucketSize_mul_total {n t : ℤ} (h3 : 3 ≤ t) :
    ((t : ℚ) - 2) * bucketSize n t = (n : ℚ) - 2 := by
  have ht : ((t : ℚ) - 2) ≠ 0 := by
    have : (3 : ℚ) ≤ (t : ℚ) := by exact_mod_cast h3
    linarith
  unfold bucketSize
  field_simp

theorem floor_mul_total {n t : ℤ} (h3 : 3 ≤ t) :
    ⌊((t : ℚ) - 2) * bucketSize n t⌋ = n - 2 := by
  rw [bucketSize_mul_total h3, show (n : ℚ) - 2 = ((n - 2 : ℤ) : ℚ) by push_cast; ring,
    Int.floor_intCast]

theorem bucketEnd_eq_bucketStart_succ (w : ℚ) (i : ℤ) :
    bucketEnd w i = bucketStart w (i + 1) := by
  unfold bucketStart bucketEnd
  push_cast
  ring_nf

theorem bucketStart_lt_bucketEnd {w : ℚ} (hw : 1 < w) (i : ℤ) :
    bucketStart w i < bucketEnd w i := by
  have h := floor_mul_strict hw (show i < i + 1 by omega)
  unfold bucketStart bucketEnd
  push_cast at h ⊢
  omega

theorem one_le_bucketStart {w : ℚ} (hw : 0 ≤ w) {i : ℤ} (hi : 0 ≤ i) :
    1 ≤ bucketStart w i := by
  unfold bucketStart
  have h : (0 : ℤ) ≤ ⌊(i : ℚ) * w⌋ := by
    apply Int.le_floor.mpr
    push_cast
    exact mul_nonneg (by exact_mod_cast hi) hw
  omega

theorem bucketEnd_le {n t : ℤ} (h3 : 3 ≤ t) (hn : t < n) {i : ℤ} (hi : i ≤ t - 3) :
    bucketEnd (bucketSize n t) i ≤ n - 1 := by
  have h1 := floor_mul_mono (bucketSize_nonneg h3 hn) (show i + 1 ≤ t - 2 by omega)
  have h2 := floor_mul_total (n := n) h3
  unfold bucketEnd
  push_cast at h1 h2 ⊢
  omega

theorem bucketStart_last {n t : ℤ} (h3 : 3 ≤ t) :
    bucketStart (bucketSize n t) (t - 2) = n - 1 := by
  have h := floor_mul_total (n := n) h3
  unfold bucketStart
  push_cast at h ⊢
  omega

/-! ### The averaging ranges -/

theorem avgRangeStart_lt_end {n t : ℤ} (h3 : 3 ≤ t) (hn : t < n) {i : ℤ}
    (hi : i < t - 2) :
    avgRangeStart (bucketSize n t) i < avgRangeEnd (bucketSize n t) n i := by
  have hw := one_lt_bucketSize h3 hn
  unfold avgRangeStart avgRangeEnd
  apply lt_min
  · have h := floor_mul_strict hw (show i + 1 < i + 2 by omega)
    push_cast at h ⊢
    omega
  · have h1 := floor_mul_mono (bucketSize_nonneg h3 hn) (show i + 1 ≤ t - 2 by omega)
    have h2 := floor_mul_total (n := n) h3
    push_cast at h1 h2 ⊢
    omega

theorem avgRange_last {n t : ℤ} (h3 : 3 ≤ t) (hn : t < n) :
    intRange (avgRangeStart (bucketSize n t) (t - 3)) (avgRangeEnd (bucketSize n t) n (t - 3))
      = [n - 1] := by
  have hw := one_lt_bucketSize h3 hn
  have htot := bucketSize_mul_total (n := n) h3
  have hs : avgRangeStart (bucketSize n t) (t - 3) = n - 1 := by
    have h := floor_mul_total (n := n) h3
    unfold avgRangeStart
    push_cast at h ⊢
    rw [show ((t : ℚ) - 3 + 1) = (t : ℚ) - 2 by ring]
    omega
  have he : avgRangeEnd (bucketSize n t) n (t - 3) = n := by
    unfold avgRangeEnd
    have h1 : (n - 1 : ℤ) ≤ ⌊((t : ℚ) - 3 + 2) * bucketSize n t⌋ := by
      apply Int.le_floor.mpr
      have hexp : ((t : ℚ) - 3 + 2) * bucketSize n t
          = ((t : ℚ) - 2) * bucketSize n t + bucketSize n t := by ring
      rw [hexp, htot]
      push_cast
      linarith
    push_cast at h1 ⊢
    rw [min_eq_right (by omega)]
  rw [hs, he]
  have h2 := intRange_singleton (n - 1)
  rwa [show n - 1 + 1 = n by ring] at h2

/-! ### The bucket partition -/

theorem flatMap_intRange {k : ℕ} {f : ℕ → ℤ} (hf : ∀ i, i < k → f i ≤ f (i + 1)) :
    (List.range k).flatMap (fun i => intRange (f i) (f (i + 1))) = intRange (f 0) (f k) := by
  induction k with
  | zero => simp [intRange_self]
  | succ m ih =>
    have hmono : ∀ j, j ≤ m → f 0 ≤ f j := by
      intro j
      induction j with
      | zero => intro _; exact le_refl _
      | succ p ihp =>
        intro hp
        exact le_trans (ihp (by omega)) (hf p (by omega))
    rw [List.range_succ, List.flatMap_append,
      ih (fun i hi => hf i (by omega))]
    simp only [List.flatMap_cons, List.flatMap_nil, List.append_nil]
    exact intRange_append (hmono m (le_refl m)) (hf m (by omega))

end EVB

namespace EVB

theorem bucketStart_mono {w : ℚ} (hw : 0 ≤ w) {i j : ℤ} (hij : i ≤ j) :
    bucketStart w i ≤ bucketStart w j := by
  unfold bucketStart
  have := floor_mul_mono hw hij
  omega

theorem bucketStart_zero (w : ℚ) : bucketStart w 0 = 1 := by
  unfold bucketStart
  norm_num

theorem bucket_length_bounds (w : ℚ) (i : ℤ) :
    ⌊w⌋ ≤ bucketEnd w i - bucketStart w i ∧ bucketEnd w i - bucketStart w i ≤ ⌊w⌋ + 1 := by
  unfold bucketStart bucketEnd
  have hfl : (⌊(i : ℚ) * w⌋ : ℚ) ≤ (i : ℚ) * w := Int.floor_le _
  have hfw : (⌊w⌋ : ℚ) ≤ w := Int.floor_le _
  have hflu := Int.lt_floor_add_one ((i : ℚ) * w)
  have hfwu := Int.lt_floor_add_one w
  have hexp : ((i : ℚ) + 1) * w = (i : ℚ) * w + w := by ring
  constructor
  · have h1 : ⌊(i : ℚ) * w⌋ + ⌊w⌋ ≤ ⌊((i : ℚ) + 1) * w⌋ := by
      apply Int.le_floor.mpr
      rw [hexp]
      push_cast
      linarith
    omega
  · have h2 : ⌊((i : ℚ) + 1) * w⌋ < ⌊(i : ℚ) * w⌋ + ⌊w⌋ + 2 := by
      apply Int.floor_lt.mpr
      rw [hexp]
      push_cast
      linarith
    omega

/-- C6: on the sampling path with `n > t ≥ 3`, the bucket ranges
`[floor(i*w) + 1, floor((i+1)*w) + 1)` for `i` in `[0, t-2)` tile the
interior indices `1 .. n-2` exactly (contiguous, pairwise disjoint,
covering, in order), each bucket is non-empty, and any two bucket
lengths differ by at most one. -/
theorem bucket_partition_correct {n t : ℤ} (h3 : 3 ≤ t) (hn : t < n) :
    ((List.range (t - 2).toNat).flatMap
        (fun (i : ℕ) => intRange (bucketStart (bucketSize n t) (i : ℤ))
          (bucketEnd (bucketSize n t) (i : ℤ)))
      = intRange 1 (n - 1))
    ∧ (∀ i : ℤ, 0 ≤ i → i < t - 2 →
        bucketStart (bucketSize n t) i < bucketEnd (bucketSize n t) i)
    ∧ (∀ i j : ℤ,
        |(bucketEnd (bucketSize n t) i - bucketStart (bucketSize n t) i)
          - (bucketEnd (bucketSize n t) j - bucketStart (bucketSize n t) j)| ≤ 1) := by
  have hw := one_lt_bucketSize h3 hn
  have hw0 := bucketSize_nonneg h3 hn
  refine ⟨?_, fun i _ _ => bucketStart_lt_bucketEnd hw i, fun i j => ?_⟩
  · have hcongr : ∀ i ∈ List.range (t - 2).toNat,
        intRange (bucketStart (bucketSize n t) (i : ℤ)) (bucketEnd (bucketSize n t) (i : ℤ))
          = intRange (bucketStart (bucketSize n t) (i : ℤ))
              (bucketStart (bucketSize n t) ((i + 1 : ℕ) : ℤ)) := by
      intro i _
      rw [bucketEnd_eq_bucketStart_succ]
      have hcast : ((i : ℤ) + 1) = ((i + 1 : ℕ) : ℤ) := by push_cast; ring
      rw [hcast]
    rw [List.flatMap_def, List.map_congr_left hcongr, ← List.flatMap_def,
      flatMap_intRange (f := fun (i : ℕ) => bucketStart (bucketSize n t) (i : ℤ))
        (fun i _ => bucketStart_mono hw0 (by omega)),
      show (((0 : ℕ) : ℤ)) = (0 : ℤ) by norm_num, bucketStart_zero]
    congr 1
    rw [show (((t - 2).toNat : ℕ) : ℤ) = t - 2 by omega]
    exact bucketStart_last h3
  · have hbi := bucket_length_bounds (bucketSize n t) i
    have hbj := bucket_length_bounds (bucketSize n t) j
    rw [abs_le]
    omega

/-- C9: on the sampling path with `n > t ≥ 3`, every next-bucket
averaging range `[floor((i+1)*w) + 1, min(floor((i+2)*w) + 1, n))` is
non-empty, and for the last bucket (`i = t - 3`) it is exactly the
singleton holding the last index `n - 1`.  Consequently the counter
guarding the `(0, 0)` fallback in `downsampleLTTB` is always positive
and `sampleData`'s unguarded divisions by `avgRangeLength` never
divide by zero. -/
theorem avgRange_nonempty_no_div_zero {n t : ℤ} (h3 : 3 ≤ t) (hn : t < n) (i : ℤ)
    (hi : i < t - 2) :
    avgRangeStart (bucketSize n t) i < avgRangeEnd (bucketSize n t) n i
    ∧ 0 < (intRange (avgRangeStart (bucketSize n t) i)
            (avgRangeEnd (bucketSize n t) n i)).length
    ∧ (i = t - 3 →
        intRange (avgRangeStart (bucketSize n t) i) (avgRangeEnd (bucketSize n t) n i)
          = [n - 1]) := by
  have hlt := avgRangeStart_lt_end h3 hn hi
  refine ⟨hlt, ?_, ?_⟩
  · rw [intRange_length]
    omega
  · rintro rfl
    exact avgRange_last h3 hn

/-- C10: shouldShowDots (the design spec's shouldShowMarkers) returns
true exactly when the original length is at most 100; in particular it
is true at 100 and false at 101. -/
theorem shouldShowDots_boundary :
    (∀ dataLength : ℤ, shouldShowDots dataLength = true ↔ dataLength ≤ 100)
    ∧ shouldShowDots 100 = true ∧ shouldShowDots 101 = false := by
  refine ⟨fun d => ?_, by decide, by decide⟩
  simp [shouldShowDots]

/-- Witness for C6 at `n = 10`, `t = 5`: the three buckets tile the
interior indices `1 .. 8`. -/
theorem bucket_partition_correct_witness :
    (List.range ((5 : ℤ) - 2).toNat).flatMap
        (fun (i : ℕ) => intRange (bucketStart (bucketSize 10 5) (i : ℤ))
          (bucketEnd (bucketSize 10 5) (i : ℤ)))
      = intRange 1 (10 - 1) :=
  (bucket_partition_correct (by decide) (by decide)).1

/-- Witness for C9 at `n = 10`, `t = 5`, last bucket `i = 2`: the
averaging range is exactly the singleton of the last index. -/
theorem avgRange_nonempty_no_div_zero_witness :
    intRange (avgRangeStart (bucketSize 10 5) 2) (avgRangeEnd (bucketSize 10 5) 10 2)
      = [10 - 1] :=
  (avgRange_nonempty_no_div_zero (by decide) (by decide) 2 (by decide)).2.2 (by decide)

end EVB

namespace EVB

/-! ### Unfolding lemmas for the sampler -/

theorem downsampleLTTB_passthrough {pd : String → ℚ} {data : List JSRec} {threshold : ℤ}
    (xKey? yKey? : Option String) (h : (data.length : ℤ) ≤ threshold) :
    downsampleLTTB pd data threshold xKey? yKey? = .ok data := by
  unfold downsampleLTTB
  rw [if_pos h]

theorem downsampleLTTB_cons (pd : String → ℚ) (d0 : JSRec) (rest : List JSRec)
    (threshold : ℤ) (xKey? yKey? : Option String)
    (hn : threshold < ((d0 :: rest).length : ℤ)) :
    downsampleLTTB pd (d0 :: rest) threshold xKey? yKey?
      = match resolveYKey d0 (resolveXKey d0 xKey?) yKey? with
        | none => .error .resolutionError
        | some yKey =>
            .ok ((dsIndices pd (d0 :: rest) (resolveXKey d0 xKey?) yKey
              (max 3 threshold)).map (jsIndex (d0 :: rest))) := by
  unfold downsampleLTTB
  rw [if_neg (by omega)]

theorem downsampleLTTB_ok_inv {pd : String → ℚ} {data : List JSRec} {threshold : ℤ}
    {xKey? yKey? : Option String} {out : List JSRec}
    (hn : threshold < (data.length : ℤ))
    (hok : downsampleLTTB pd data threshold xKey? yKey? = .ok out) :
    ∃ d0 rest yK, data = d0 :: rest
      ∧ resolveYKey d0 (resolveXKey d0 xKey?) yKey? = some yK
      ∧ out = (dsIndices pd data (resolveXKey d0 xKey?) yK (max 3 threshold)).map
          (jsIndex data) := by
  cases data with
  | nil =>
    unfold downsampleLTTB at hok
    rw [if_neg (by omega)] at hok
    exact absurd hok (by simp)
  | cons d0 rest =>
    rw [downsampleLTTB_cons _ _ _ _ _ _ hn] at hok
    cases hyk : resolveYKey d0 (resolveXKey d0 xKey?) yKey? with
    | none =>
      rw [hyk] at hok
      exact absurd hok (by simp)
    | some yK =>
      rw [hyk] at hok
      simp only [SampleResult.ok.injEq] at hok
      exact ⟨d0, rest, yK, rfl, hyk, hok.symm⟩

theorem lttbIndices_length (pd : String → ℚ) (data : List JSRec) (xK yK : String)
    (w : ℚ) (n : ℤ) :
    ∀ (count : ℕ) (i prev : ℤ),
      (lttbIndices pd data xK yK w n count i prev).length = count := by
  intro count
  induction count with
  | zero => intro i prev; rfl
  | succ m ih =>
    intro i prev
    simp only [lttbIndices, List.length_cons, ih]

theorem dsIndices_length (pd : String → ℚ) (data : List JSRec) (xK yK : String) (t : ℤ) :
    (dsIndices pd data xK yK t).length = (t - 2).toNat + 2 := by
  unfold dsIndices
  rw [List.length_append, List.length_cons, lttbIndices_length]
  simp

/-! ### C1 and C3: passthrough and output sizes -/

/-- C1 (amended): when the input length is at most the threshold the
call is a pure passthrough returning the input itself; otherwise the
output length is exactly `max 3 threshold` (which equals
`min(len(data), max(3, threshold))` whenever `len(data) ≥ 3`, and in
particular equals `threshold` when `len(data) > threshold ≥ 3`, but
differs from the claimed minimum for inputs of length below 3). -/
theorem downsample_passthrough_and_sampled_length (pd : String → ℚ) (data : List JSRec)
    (threshold : ℤ) (xKey? yKey? : Option String) :
    ((data.length : ℤ) ≤ threshold →
      downsampleLTTB pd data threshold xKey? yKey? = .ok data)
    ∧ (∀ out, threshold < (data.length : ℤ) →
        downsampleLTTB pd data threshold xKey? yKey? = .ok out →
        (out.length : ℤ) = max 3 threshold) := by
  constructor
  · exact downsampleLTTB_passthrough xKey? yKey?
  · intro out hn hok
    obtain ⟨d0, rest, yK, hdata, hyk, hout⟩ := downsampleLTTB_ok_inv hn hok
    rw [hout, List.length_map, dsIndices_length]
    have h3 : 3 ≤ max 3 threshold := le_max_left _ _
    omega

/-- Witness for C1 on the sampling path: four records at threshold 3
give exactly `max 3 3 = 3` output records. -/
theorem downsample_passthrough_and_sampled_length_witness :
    downsampleLTTB pdZero data4 3 none none = .ok out4 ∧ ((out4.length : ℤ)) = max 3 3 :=
  ⟨by with_unfolding_all decide,
   (downsample_passthrough_and_sampled_length pdZero data4 3 none none).2 out4
     (by decide) (by with_unfolding_all decide)⟩

/-- Counterexample to C1 as frozen: a two-element input at threshold 1
takes the sampling path and produces three records, not
`min(len(data), max(3, threshold)) = 2`. -/
theorem downsample_length_not_min_counterexample :
    downsampleLTTB pdZero data2 1 none none = .ok out3
    ∧ (out3.length : ℤ) ≠ min ((data2.length : ℤ)) (max 3 1) := by
  with_unfolding_all decide

/-- C3 (amended): adaptiveSample returns the input unchanged when its
length equals the merged threshold; when the length is the merged
threshold plus one it returns exactly `targetPoints` records provided
`3 ≤ targetPoints ≤ threshold` (as with the defaults 500/300, merged
in when a field is absent) — but not for arbitrary configurations,
since `downsample` passes through or clamps otherwise. -/
theorem adaptiveSample_boundary (pd : String → ℚ) (data : List JSRec)
    (config : SamplingConfigPartial) (xKey? yKey? : Option String) :
    ((data.length : ℤ) = (mergeConfig config).threshold →
      adaptiveSample pd data config xKey? yKey? = .ok data)
    ∧ (∀ out, (data.length : ℤ) = (mergeConfig config).threshold + 1 →
        3 ≤ (mergeConfig config).targetPoints →
        (mergeConfig config).targetPoints ≤ (mergeConfig config).threshold →
        adaptiveSample pd data config xKey? yKey? = .ok out →
        (out.length : ℤ) = (mergeConfig config).targetPoints)
    ∧ mergeConfig ⟨none, none⟩ = DEFAULT_SAMPLING_CONFIG := by
  refine ⟨?_, ?_, rfl⟩
  · intro hlen
    unfold adaptiveSample
    rw [if_pos (by omega)]
  · intro out hlen h3 hle hok
    unfold adaptiveSample at hok
    rw [if_neg (by omega)] at hok
    have hn : (mergeConfig config).targetPoints < (data.length : ℤ) := by omega
    obtain ⟨d0, rest, yK, hdata, hyk, hout⟩ := downsampleLTTB_ok_inv hn hok
    rw [hout, List.length_map, dsIndices_length, max_eq_right h3]
    omega

/-- Witness for C3: threshold 4, target 3, five records: exactly three
records come back. -/
theorem adaptiveSample_boundary_witness :
    adaptiveSample pdZero data5 ⟨some 4, some 3⟩ none none = .ok out5
    ∧ ((out5.length : ℤ)) = (mergeConfig ⟨some 4, some 3⟩).targetPoints :=
  ⟨by with_unfolding_all decide,
   (adaptiveSample_boundary pdZero data5 ⟨some 4, some 3⟩ none none).2.1 out5
     (by decide) (by decide) (by decide) (by with_unfolding_all decide)⟩

/-- Counterexample to C3 as frozen: with threshold 10 and targetPoints
300, eleven records are one past the threshold, yet the call returns
all eleven records (the inner downsample passes through), not
targetPoints = 300 items. -/
theorem adaptiveSample_boundary_counterexample :
    adaptiveSample pdZero (List.replicate 11 recTA) ⟨some 10, some 300⟩ none none
      = .ok (List.replicate 11 recTA)
    ∧ ((List.replicate 11 recTA).length : ℤ) ≠ 300 := by
  with_unfolding_all decide

end EVB

namespace EVB

/-! ### C2 and C8: key resolution -/

theorem resolveYKey_none_iff (d0 : JSRec) (xK : String) :
    resolveYKey d0 xK none = none ↔ ∀ p ∈ d0, p.1 = xK ∨ isNumber p.2 = false := by
  unfold resolveYKey
  rw [Option.map_eq_none', List.find?_eq_none]
  constructor
  · intro h p hp
    have hpred := h p hp
    by_cases hk : p.1 = xK
    · exact Or.inl hk
    · right
      simp only [hk, ne_eq, not_false_eq_true, decide_True, Bool.true_and] at hpred
      simp only [Bool.not_eq_true] at hpred
      exact hpred
  · intro h p hp
    rcases h p hp with hk | hnum
    · simp [hk]
    · simp [hnum]

theorem find?_first_in_append {α : Type} (p : α → Bool) (x : α) :
    ∀ (pre post : List α), (∀ y ∈ pre, p y = false) → p x = true →
      List.find? p (pre ++ x :: post) = some x := by
  intro pre
  induction pre with
  | nil =>
    intro post _ hx
    rw [List.nil_append]
    exact List.find?_cons_of_pos _ hx
  | cons a as ih =>
    intro post hpre hx
    rw [List.cons_append, List.find?_cons_of_neg]
    · exact ih post (fun y hy => hpre y (List.mem_cons_of_mem _ hy)) hx
    · simp [hpre a (List.mem_cons_self _ _)]

theorem resolveYKey_some_first {d0 : JSRec} {xK : String} {pre post : JSRec} {k : String}
    {q : ℚ} (hsplit : d0 = pre ++ (k, JSVal.num q) :: post) (hk : k ≠ xK)
    (hpre : ∀ p ∈ pre, p.1 = xK ∨ isNumber p.2 = false) :
    resolveYKey d0 xK none = some k := by
  subst hsplit
  unfold resolveYKey
  rw [find?_first_in_append _ _ _ _ ?hpre ?hx]
  · rfl
  case hpre =>
    intro y hy
    rcases hpre y hy with h | h
    · simp [h]
    · simp [h]
  case hx => simp [isNumber, hk]

/-- C8: on the sampling path with no explicit y-key, `downsampleLTTB`
raises its resolution error exactly when no field of `data[0]` other
than the resolved x-key holds a number; and when the first such field
(in declaration order) is `k`, the call behaves exactly as if `k` had
been passed explicitly — so with two numeric non-x fields the one
declared first wins deterministically. -/
theorem ykey_resolution_first_numeric {pd : String → ℚ} {d0 : JSRec} {rest : List JSRec}
    {threshold : ℤ} {xKey? : Option String}
    (hn : threshold < ((d0 :: rest).length : ℤ)) :
    (downsampleLTTB pd (d0 :: rest) threshold xKey? none = .error .resolutionError
      ↔ ∀ p ∈ d0, p.1 = resolveXKey d0 xKey? ∨ isNumber p.2 = false)
    ∧ (∀ (pre post : JSRec) (k : String) (q : ℚ),
        d0 = pre ++ (k, JSVal.num q) :: post → k ≠ resolveXKey d0 xKey? →
        (∀ p ∈ pre, p.1 = resolveXKey d0 xKey? ∨ isNumber p.2 = false) →
        downsampleLTTB pd (d0 :: rest) threshold xKey? none
          = downsampleLTTB pd (d0 :: rest) threshold xKey? (some k)) := by
  constructor
  · rw [downsampleLTTB_cons _ _ _ _ _ _ hn,
      ← resolveYKey_none_iff d0 (resolveXKey d0 xKey?)]
    cases hyk : resolveYKey d0 (resolveXKey d0 xKey?) none with
    | none => simp [hyk]
    | some yK => simp [hyk]
  · intro pre post k q hsplit hk hpre
    have hyk : resolveYKey d0 (resolveXKey d0 xKey?) none = some k :=
      resolveYKey_some_first hsplit hk hpre
    rw [downsampleLTTB_cons _ _ _ _ _ _ hn, downsampleLTTB_cons _ _ _ _ _ _ hn, hyk]
    rfl

/-- Witness for C8: with fields time, a, b (a and b numeric) and no
explicit keys, the call equals the call with y-key a passed
explicitly, and no resolution error is raised. -/
theorem ykey_resolution_first_numeric_witness :
    downsampleLTTB pdZero dataE 3 none none = downsampleLTTB pdZero dataE 3 none (some "a")
    ∧ downsampleLTTB pdZero dataE 3 none none ≠ .error .resolutionError := by
  have h := @ykey_resolution_first_numeric pdZero recE0 [recE1, recE2, recE3] 3 none
    (by decide)
  constructor
  · exact h.2 [("time", JSVal.num 0)] [("b", JSVal.num 2)] "a" 1 (by decide) (by decide)
      (by decide)
  · intro habs
    rcases h.1.mp habs ("a", JSVal.num 1) (by decide) with h' | h'
    · exact absurd h' (by decide)
    · exact absurd h' (by decide)

/-- C2 (amended): a missing x-field does not raise.  With no explicit
keys and `data[0]` lacking both time and timestamp fields, the x-key
silently defaults to timestamp; the call still succeeds whenever some
field not named timestamp holds a number, and it raises the
resolution error exactly when every field of `data[0]` is named
timestamp or is non-numeric — the error tracks only the y-key. -/
theorem downsample_missing_xkey_behavior {pd : String → ℚ} {d0 : JSRec} {rest : List JSRec}
    {threshold : ℤ} (hn : threshold < ((d0 :: rest).length : ℤ))
    (htime : hasKey d0 "time" = false) (_hts : hasKey d0 "timestamp" = false) :
    (∀ (k : String) (q : ℚ), (k, JSVal.num q) ∈ d0 → k ≠ "timestamp" →
      (downsampleLTTB pd (d0 :: rest) threshold none none).isOk = true)
    ∧ (downsampleLTTB pd (d0 :: rest) threshold none none = .error .resolutionError
        ↔ ∀ p ∈ d0, p.1 = "timestamp" ∨ isNumber p.2 = false) := by
  have hx : resolveXKey d0 none = "timestamp" := by
    simp [resolveXKey, htime]
  constructor
  · intro k q hk hkts
    have hsome : (resolveYKey d0 "timestamp" none).isSome = true := by
      unfold resolveYKey
      rw [Option.isSome_map']
      rw [List.find?_isSome]
      exact ⟨(k, JSVal.num q), hk, by simp [isNumber, hkts]⟩
    obtain ⟨yK, hyk⟩ := Option.isSome_iff_exists.mp hsome
    rw [downsampleLTTB_cons _ _ _ _ _ _ hn, hx, hyk]
    rfl
  · rw [downsampleLTTB_cons _ _ _ _ _ _ hn, hx,
      ← resolveYKey_none_iff d0 "timestamp"]
    cases hyk : resolveYKey d0 "timestamp" none with
    | none => simp [hyk]
    | some yK => simp [hyk]

/-- Witness for C2: records whose only field is a numeric voltage (no
time, no timestamp) still sample without an error. -/
theorem downsample_missing_xkey_behavior_witness :
    (downsampleLTTB pdZero dataV 3 none none).isOk = true :=
  (@downsample_missing_xkey_behavior pdZero recV0 [recV1, recV2, recV3] 3
    (by decide) (by decide) (by decide)).1 "voltage" 1 (by decide) (by decide)

/-- Counterexample to C2 as frozen: four records with neither time nor
timestamp on the sampling path do not raise the resolution error (the
code silently uses the absent timestamp field as x). -/
theorem downsample_missing_xkey_counterexample :
    downsampleLTTB pdZero dataV 3 none none ≠ .error .resolutionError := by
  with_unfolding_all decide

end EVB

namespace EVB

/-! ### C4: endpoint preservation -/

theorem jsIndex_zero (d0 : JSRec) (rest : List JSRec) : jsIndex (d0 :: rest) 0 = d0 := rfl

theorem jsIndex_last (d0 : JSRec) (rest : List JSRec) :
    (d0 :: rest).getLast? = some (jsIndex (d0 :: rest) (((d0 :: rest).length : ℤ) - 1)) := by
  have hlen : (d0 :: rest).length = rest.length + 1 := List.length_cons _ _
  rw [List.getLast?_eq_getElem?]
  have hlt : (d0 :: rest).length - 1 < (d0 :: rest).length := by omega
  rw [List.getElem?_eq_getElem hlt]
  congr 1
  have hidx : ((((d0 :: rest).length : ℤ)) - 1).toNat = (d0 :: rest).length - 1 := by omega
  unfold jsIndex
  rw [if_pos (by omega), hidx, List.getD_eq_getElem _ _ hlt]

/-- C4: whenever sampling is applied (the input is longer than the
threshold and the call returns normally), the first output element is
the first input element and the last output element is the last input
element. -/
theorem downsample_endpoint_preservation {pd : String → ℚ} {data : List JSRec}
    {threshold : ℤ} {xKey? yKey? : Option String} {out : List JSRec}
    (hn : threshold < (data.length : ℤ))
    (hok : downsampleLTTB pd data threshold xKey? yKey? = .ok out) :
    out.head? = data.head? ∧ out.getLast? = data.getLast? := by
  obtain ⟨d0, rest, yK, hdata, hyk, hout⟩ := downsampleLTTB_ok_inv hn hok
  subst hdata
  rw [hout]
  unfold dsIndices
  rw [List.map_append, List.map_cons]
  constructor
  · rw [List.cons_append, List.head?_cons, jsIndex_zero, List.head?_cons]
  · rw [show List.map (jsIndex (d0 :: rest)) [((d0 :: rest).length : ℤ) - 1]
        = [jsIndex (d0 :: rest) (((d0 :: rest).length : ℤ) - 1)] from rfl,
      List.getLast?_concat, jsIndex_last]

/-- Witness for C4: four records at threshold 3 keep the first and the
last record. -/
theorem downsample_endpoint_preservation_witness :
    out4.head? = data4.head? ∧ out4.getLast? = data4.getLast? :=
  @downsample_endpoint_preservation pdZero data4 3 none none out4 (by decide)
    (by with_unfolding_all decide)

end EVB

namespace EVB

/-! ### C5: order preservation -/

theorem maxAreaFold_snd_mem (g : ℤ → ℚ) :
    ∀ (l : List ℤ) (a : ℚ × ℤ),
      (maxAreaFold g l a).2 = a.2 ∨ (maxAreaFold g l a).2 ∈ l := by
  intro l
  induction l with
  | nil => intro a; exact Or.inl rfl
  | cons j tl ih =>
    intro a
    unfold maxAreaFold at ih ⊢
    rw [List.foldl_cons]
    by_cases hc : g j > a.1
    · rw [if_pos hc]
      rcases ih (g j, j) with h | h
      · exact Or.inr (by rw [h]; exact List.mem_cons_self _ _)
      · exact Or.inr (List.mem_cons_of_mem _ h)
    · rw [if_neg hc]
      rcases ih a with h | h
      · exact Or.inl h
      · exact Or.inr (List.mem_cons_of_mem _ h)

theorem selectInBucket_mem {w : ℚ} (hw : 1 < w) (pd : String → ℚ) (data : List JSRec)
    (xK yK : String) (n prev i : ℤ) :
    bucketStart w i ≤ selectInBucket pd data xK yK w n prev i
    ∧ selectInBucket pd data xK yK w n prev i < bucketEnd w i := by
  have hbe := bucketStart_lt_bucketEnd hw i
  have hmem := maxAreaFold_snd_mem
    (fun j => triangleArea (pointAt pd data xK yK prev) (pointAt pd data xK yK j)
      (nextBucketAvg pd data xK yK (avgRangeStart w i) (avgRangeEnd w n i)))
    (intRange (bucketStart w i) (bucketEnd w i)) (-1, bucketStart w i)
  have hsel : selectInBucket pd data xK yK w n prev i
      = (maxAreaFold
          (fun j => triangleArea (pointAt pd data xK yK prev) (pointAt pd data xK yK j)
            (nextBucketAvg pd data xK yK (avgRangeStart w i) (avgRangeEnd w n i)))
          (intRange (bucketStart w i) (bucketEnd w i)) (-1, bucketStart w i)).2 := rfl
  rw [hsel]
  rcases hmem with h | h
  · rw [h]
    exact ⟨le_refl _, hbe⟩
  · have hb := mem_intRange.mp h
    exact ⟨hb.1, hb.2⟩

theorem lttbIndices_bounds {n t : ℤ} (h3 : 3 ≤ t) (hn : t < n) (pd : String → ℚ)
    (data : List JSRec) (xK yK : String) :
    ∀ (count : ℕ) (i prev : ℤ), 0 ≤ i → i + count = t - 2 →
      ∀ j ∈ lttbIndices pd data xK yK (bucketSize n t) n count i prev,
        1 ≤ j ∧ j < n - 1 := by
  have hw := one_lt_bucketSize h3 hn
  have hw0 := bucketSize_nonneg h3 hn
  intro count
  induction count with
  | zero =>
    intro i prev _ _ j hj
    simp [lttbIndices] at hj
  | succ m ih =>
    intro i prev h0 hsum j hj
    simp only [lttbIndices] at hj
    rcases List.mem_cons.mp hj with rfl | hj
    · have hmem := selectInBucket_mem hw pd data xK yK n prev i
      have h1 : 1 ≤ bucketStart (bucketSize n t) i := one_le_bucketStart hw0 h0
      have h2 : bucketEnd (bucketSize n t) i ≤ n - 1 := bucketEnd_le h3 hn (by omega)
      omega
    · exact ih (i + 1) _ (by omega) (by omega) j hj

theorem lttbIndices_chain {n t : ℤ} (h3 : 3 ≤ t) (hn : t < n) (pd : String → ℚ)
    (data : List JSRec) (xK yK : String) :
    ∀ (count : ℕ) (i prev c : ℤ), 0 ≤ i → i + count = t - 2 →
      c < bucketStart (bucketSize n t) i →
      List.Chain (· < ·) c
        (lttbIndices pd data xK yK (bucketSize n t) n count i prev ++ [n - 1]) := by
  have hw := one_lt_bucketSize h3 hn
  intro count
  induction count with
  | zero =>
    intro i prev c _ hsum hc
    have hi : i = t - 2 := by omega
    subst hi
    rw [bucketStart_last h3] at hc
    simp only [lttbIndices, List.nil_append]
    exact List.Chain.cons hc List.Chain.nil
  | succ m ih =>
    intro i prev c h0 hsum hc
    simp only [lttbIndices, List.cons_append]
    have hmem := selectInBucket_mem hw pd data xK yK n prev i
    refine List.Chain.cons (lt_of_lt_of_le hc hmem.1) ?_
    apply ih (i + 1) _ _ (by omega) (by omega)
    rw [← bucketEnd_eq_bucketStart_succ]
    exact hmem.2

theorem map_getD_shift {α : Type} (d x : α) (xs : List α) (l : List ℕ)
    (h1 : ∀ m ∈ l, 1 ≤ m) :
    l.map (fun m => (x :: xs).getD m d)
      = (l.map (fun m => m - 1)).map (fun m => xs.getD m d) := by
  rw [List.map_map]
  apply List.map_congr_left
  intro m hm
  have hm1 := h1 m hm
  obtain ⟨m', rfl⟩ : ∃ m', m = m' + 1 := ⟨m - 1, by omega⟩
  simp only [Function.comp_apply, Nat.add_sub_cancel]
  rw [List.getD_cons_succ]

theorem map_getD_sublist {α : Type} (d : α) :
    ∀ (l : List α) (idxs : List ℕ), List.Pairwise (· < ·) idxs →
      (∀ j ∈ idxs, j < l.length) →
      (idxs.map (fun j => l.getD j d)).Sublist l := by
  intro l
  induction l with
  | nil =>
    intro idxs _ hb
    cases idxs with
    | nil => simp
    | cons a as => exact absurd (hb a (List.mem_cons_self _ _)) (by simp)
  | cons x xs ih =>
    intro idxs hp hb
    cases idxs with
    | nil => simp
    | cons j rest =>
      obtain ⟨hgt, hp'⟩ := List.pairwise_cons.mp hp
      cases j with
      | zero =>
        rw [List.map_cons, List.getD_cons_zero,
          map_getD_shift d x xs rest (fun m hm => by have := hgt m hm; omega)]
        refine List.Sublist.cons₂ _ ?_
        apply ih
        · rw [List.pairwise_map]
          apply List.Pairwise.imp_of_mem _ hp'
          intro a b ha _ hab
          have := hgt a ha
          omega
        · intro m hm
          obtain ⟨m0, hm0, rfl⟩ := List.mem_map.mp hm
          have hlt := hb m0 (List.mem_cons_of_mem _ hm0)
          have hpos := hgt m0 hm0
          rw [List.length_cons] at hlt
          omega
      | succ jj =>
        apply List.Sublist.cons
        rw [map_getD_shift d x xs ((jj + 1) :: rest)
          (fun m hm => by
            rcases List.mem_cons.mp hm with rfl | hm'
            · omega
            · have := hgt m hm'
              omega)]
        apply ih
        · rw [List.pairwise_map]
          apply List.Pairwise.imp_of_mem _ hp
          intro a b ha _ hab
          rcases List.mem_cons.mp ha with rfl | ha'
          · omega
          · have := hgt a ha'
            omega
        · intro m hm
          obtain ⟨m0, hm0, rfl⟩ := List.mem_map.mp hm
          have hlt := hb m0 hm0
          have hpos : 1 ≤ m0 := by
            rcases List.mem_cons.mp hm0 with rfl | hm0'
            · omega
            · have := hgt m0 hm0'
              omega
          rw [List.length_cons] at hlt
          omega

end EVB

namespace EVB

/-- C5 (amended): whenever `threshold ≥ 3` (so the clamp is inactive)
and the call succeeds on the sampling path, the output is obtained
from a strictly increasing list of source indices — 0 first, then one
index per bucket in ascending bucket order, then the last index — and
is therefore a subsequence of the input in original order with no
reordering.  (For inputs of length below 3, reachable only with
`threshold < 3`, the clamped run can repeat the last index, which is
what the counterexample exhibits.) -/
theorem downsample_order_preservation {pd : String → ℚ} {data : List JSRec}
    {threshold : ℤ} {xKey? yKey? : Option String} {out : List JSRec}
    {d0 : JSRec} {rest : List JSRec} {yK : String}
    (h3 : 3 ≤ threshold) (hn : threshold < (data.length : ℤ))
    (hdata : data = d0 :: rest)
    (hyk : resolveYKey d0 (resolveXKey d0 xKey?) yKey? = some yK)
    (hok : downsampleLTTB pd data threshold xKey? yKey? = .ok out) :
    out = (dsIndices pd data (resolveXKey d0 xKey?) yK threshold).map (jsIndex data)
    ∧ List.Chain' (· < ·) (dsIndices pd data (resolveXKey d0 xKey?) yK threshold)
    ∧ out.Sublist data := by
  have hmax : max 3 threshold = threshold := max_eq_right h3
  subst hdata
  rw [downsampleLTTB_cons _ _ _ _ _ _ hn, hyk, hmax] at hok
  simp only [SampleResult.ok.injEq] at hok
  have hout : out
      = (dsIndices pd (d0 :: rest) (resolveXKey d0 xKey?) yK threshold).map
          (jsIndex (d0 :: rest)) := hok.symm
  have hch : List.Chain' (· < ·)
      (dsIndices pd (d0 :: rest) (resolveXKey d0 xKey?) yK threshold) := by
    unfold dsIndices
    rw [List.cons_append]
    show List.Chain (· < ·) 0
      (lttbIndices pd (d0 :: rest) (resolveXKey d0 xKey?) yK
          (bucketSize ((d0 :: rest).length : ℤ) threshold) ((d0 :: rest).length : ℤ)
          (threshold - 2).toNat 0 0
        ++ [((d0 :: rest).length : ℤ) - 1])
    apply lttbIndices_chain h3 hn pd (d0 :: rest) (resolveXKey d0 xKey?) yK
      (threshold - 2).toNat 0 0 0 (le_refl 0) (by omega)
    rw [bucketStart_zero]
    norm_num
  have hbnd : ∀ j ∈ dsIndices pd (d0 :: rest) (resolveXKey d0 xKey?) yK threshold,
      0 ≤ j ∧ j < ((d0 :: rest).length : ℤ) := by
    have hlen : (d0 :: rest).length = rest.length + 1 := List.length_cons _ _
    intro j hj
    unfold dsIndices at hj
    rw [List.cons_append, List.mem_cons] at hj
    rcases hj with rfl | hj
    · omega
    rw [List.mem_append] at hj
    rcases hj with hj | hj
    · have := lttbIndices_bounds h3 hn pd (d0 :: rest) (resolveXKey d0 xKey?) yK
        (threshold - 2).toNat 0 0 (le_refl 0) (by omega) j hj
      omega
    · rw [List.mem_singleton] at hj
      subst hj
      omega
  refine ⟨hout, hch, ?_⟩
  rw [hout]
  have hpair : List.Pairwise (· < ·)
      (dsIndices pd (d0 :: rest) (resolveXKey d0 xKey?) yK threshold) :=
    List.chain'_iff_pairwise.mp hch
  have hmapeq : (dsIndices pd (d0 :: rest) (resolveXKey d0 xKey?) yK threshold).map
        (jsIndex (d0 :: rest))
      = ((dsIndices pd (d0 :: rest) (resolveXKey d0 xKey?) yK threshold).map
          Int.toNat).map (fun j => (d0 :: rest).getD j ([] : JSRec)) := by
    rw [List.map_map]
    apply List.map_congr_left
    intro j hj
    have hb := hbnd j hj
    simp only [Function.comp_apply]
    unfold jsIndex
    rw [if_pos hb.1]
  rw [hmapeq]
  apply map_getD_sublist
  · rw [List.pairwise_map]
    apply List.Pairwise.imp_of_mem _ hpair
    intro a b ha hb hab
    have h1 := hbnd a ha
    have h2 := hbnd b hb
    omega
  · intro m hm
    obtain ⟨j, hj, rfl⟩ := List.mem_map.mp hm
    have := hbnd j hj
    omega

/-- Witness for C5: four records at threshold 3 give the index list
0, 1, 3 (strictly increasing) and a subsequence of the input. -/
theorem downsample_order_preservation_witness :
    out4 = (dsIndices pdZero data4 "time" "v" 3).map (jsIndex data4)
    ∧ List.Chain' (· < ·) (dsIndices pdZero data4 "time" "v" 3)
    ∧ out4.Sublist data4 :=
  @downsample_order_preservation pdZero data4 3 none none out4 recTA
    [recTB, recTC, recTD] "v" (by decide) (by decide) rfl
    (by with_unfolding_all decide) (by with_unfolding_all decide)

/-- Counterexample to C5 as frozen: a two-element input at threshold 1
succeeds but returns the last record twice — the source index
sequence 0, 1, 1 is not strictly increasing and the output is not a
subsequence of the input. -/
theorem downsample_order_counterexample :
    downsampleLTTB pdZero data2 1 none none = .ok out3 ∧ ¬ out3.Sublist data2 := by
  constructor
  · with_unfolding_all decide
  · intro h
    have hle := h.length_le
    have h1 : out3.length = 3 := rfl
    have h2 : data2.length = 2 := rfl
    omega

end EVB

namespace EVB

/-! ### C7: the hardcoded sampler refines the generic engine -/

theorem getField_toRec_timestamp (r : BatteryReading) :
    getField (toRec r) "timestamp" = .str r.timestamp := rfl

theorem getField_toRec_voltage (r : BatteryReading) :
    getField (toRec r) "voltage" = .num r.voltage := rfl

theorem jsIndex_map_toRec {data : List BatteryReading} {j : ℤ}
    (h0 : 0 ≤ j) (hj : j < (data.length : ℤ)) :
    jsIndex (data.map toRec) j = toRec (jsIndexB data j) := by
  unfold jsIndex jsIndexB
  rw [if_pos h0, if_pos h0]
  have hlt : j.toNat < data.length := by omega
  have hlt2 : j.toNat < (data.map toRec).length := by
    rw [List.length_map]
    exact hlt
  rw [List.getD_eq_getElem _ _ hlt2, List.getD_eq_getElem _ _ hlt, List.getElem_map]

theorem pointAt_map_toRec (pd : String → ℚ) (data : List BatteryReading) {j : ℤ}
    (h0 : 0 ≤ j) (hj : j < (data.length : ℤ)) :
    pointAt pd (data.map toRec) "timestamp" "voltage" j
      = (pd (jsIndexB data j).timestamp, (jsIndexB data j).voltage) := by
  unfold pointAt
  rw [jsIndex_map_toRec h0 hj, getField_toRec_timestamp, getField_toRec_voltage]
  rfl

theorem foldl_sum_count (f g : ℤ → ℚ) :
    ∀ (l : List ℤ) (a b : ℚ) (c : ℕ),
      l.foldl (fun (acc : ℚ × ℚ × ℕ) j => (acc.1 + f j, acc.2.1 + g j, acc.2.2 + 1))
          (a, b, c)
        = ((l.foldl (fun (acc : ℚ × ℚ) j => (acc.1 + f j, acc.2 + g j)) (a, b)).1,
           (l.foldl (fun (acc : ℚ × ℚ) j => (acc.1 + f j, acc.2 + g j)) (a, b)).2,
           c + l.length) := by
  intro l
  induction l with
  | nil =>
    intro a b c
    simp
  | cons j tl ih =>
    intro a b c
    rw [List.foldl_cons, List.foldl_cons, ih]
    simp only [Prod.mk.injEq, List.length_cons]
    refine ⟨trivial, trivial, ?_⟩
    omega

theorem maxAreaFold_congr {g₁ g₂ : ℤ → ℚ} (l : List ℤ) (h : ∀ j ∈ l, g₁ j = g₂ j)
    (a : ℚ × ℤ) : maxAreaFold g₁ l a = maxAreaFold g₂ l a := by
  unfold maxAreaFold
  apply List.foldl_ext
  intro acc j hj
  rw [h j hj]

theorem maxAreaFold_init_irrel {g : ℤ → ℚ} (hg : ∀ j, 0 ≤ g j) {l : List ℤ}
    (hne : l ≠ []) (a b : ℤ) :
    (maxAreaFold g l (-1, a)).2 = (maxAreaFold g l (-1, b)).2 := by
  cases l with
  | nil => exact absurd rfl hne
  | cons j tl =>
    unfold maxAreaFold
    rw [List.foldl_cons, List.foldl_cons]
    dsimp only
    have h1 : g j > (-1 : ℚ) := lt_of_lt_of_le (by norm_num) (hg j)
    rw [if_pos h1, if_pos h1]

theorem maxAreaFold_eq_of (g₁ g₂ : ℤ → ℚ) (l : List ℤ) (hne : l ≠ [])
    (hg : ∀ j ∈ l, g₁ j = g₂ j) (hpos : ∀ j, 0 ≤ g₂ j) (a b : ℤ) :
    (maxAreaFold g₁ l (-1, a)).2 = (maxAreaFold g₂ l (-1, b)).2 := by
  rw [maxAreaFold_congr l hg]
  exact maxAreaFold_init_irrel hpos hne a b

theorem nextBucketAvg_map_toRec (pd : String → ℚ) (data : List BatteryReading)
    {s e : ℤ} (h0 : 0 ≤ s) (he : e ≤ (data.length : ℤ)) (hse : s < e) :
    nextBucketAvg pd (data.map toRec) "timestamp" "voltage" s e
      = (((intRange s e).foldl (fun (acc : ℚ × ℚ) j =>
            (acc.1 + pd (jsIndexB data j).timestamp, acc.2 + (jsIndexB data j).voltage))
            (0, 0)).1 / ((e - s : ℤ) : ℚ),
         ((intRange s e).foldl (fun (acc : ℚ × ℚ) j =>
            (acc.1 + pd (jsIndexB data j).timestamp, acc.2 + (jsIndexB data j).voltage))
            (0, 0)).2 / ((e - s : ℤ) : ℚ)) := by
  unfold nextBucketAvg
  have hext : (intRange s e).foldl
      (fun (acc : ℚ × ℚ × ℕ) j =>
        (acc.1 + (pointAt pd (data.map toRec) "timestamp" "voltage" j).1,
         acc.2.1 + (pointAt pd (data.map toRec) "timestamp" "voltage" j).2,
         acc.2.2 + 1)) (0, 0, 0)
      = (intRange s e).foldl
        (fun (acc : ℚ × ℚ × ℕ) j =>
          (acc.1 + pd (jsIndexB data j).timestamp,
           acc.2.1 + (jsIndexB data j).voltage,
           acc.2.2 + 1)) (0, 0, 0) := by
    apply List.foldl_ext
    intro acc j hj
    have hb := mem_intRange.mp hj
    rw [pointAt_map_toRec pd data (by omega) (by omega)]
  rw [hext, foldl_sum_count
    (fun j => pd (jsIndexB data j).timestamp) (fun j => (jsIndexB data j).voltage)]
  dsimp only
  have hlen : (0 : ℕ) + (intRange s e).length = (e - s).toNat := by
    rw [intRange_length]
    omega
  rw [hlen, if_pos (by omega)]
  have h1 : (((e - s).toNat : ℕ) : ℤ) = e - s := Int.toNat_of_nonneg (by omega)
  have hcast : (((e - s).toNat : ℕ) : ℚ) = ((e - s : ℤ) : ℚ) := by
    calc (((e - s).toNat : ℕ) : ℚ) = ((((e - s).toNat : ℕ) : ℤ) : ℚ) := by push_cast; ring
      _ = ((e - s : ℤ) : ℚ) := by rw [h1]
  rw [hcast]

end EVB

namespace EVB

theorem avgRangeStart_eq_bucketStart_succ (w : ℚ) (i : ℤ) :
    avgRangeStart w i = bucketStart w (i + 1) := by
  unfold avgRangeStart bucketStart
  push_cast
  ring_nf

theorem selectInBucket_map_toRec (pd : String → ℚ) (data : List BatteryReading)
    {t : ℤ} (h3 : 3 ≤ t) (hn : t < (data.length : ℤ)) {i prev : ℤ}
    (h0 : 0 ≤ i) (hi : i < t - 2) (hp0 : 0 ≤ prev) (hpn : prev < (data.length : ℤ)) :
    selectInBucket pd (data.map toRec) "timestamp" "voltage"
        (bucketSize (data.length : ℤ) t) (data.length : ℤ) prev i
      = selectInBucketSD pd data (bucketSize (data.length : ℤ) t) (data.length : ℤ)
          prev i := by
  have hw := one_lt_bucketSize h3 hn
  have hw0 := bucketSize_nonneg h3 hn
  have hse := avgRangeStart_lt_end h3 hn hi
  have hs0 : 0 ≤ avgRangeStart (bucketSize (data.length : ℤ) t) i := by
    rw [avgRangeStart_eq_bucketStart_succ]
    have := one_le_bucketStart hw0 (show (0 : ℤ) ≤ i + 1 by omega)
    omega
  have heN : avgRangeEnd (bucketSize (data.length : ℤ) t) (data.length : ℤ) i
      ≤ (data.length : ℤ) := min_le_right _ _
  have hbs1 : 1 ≤ bucketStart (bucketSize (data.length : ℤ) t) i :=
    one_le_bucketStart hw0 h0
  have hbe : bucketEnd (bucketSize (data.length : ℤ) t) i ≤ (data.length : ℤ) - 1 :=
    bucketEnd_le h3 hn (by omega)
  simp only [selectInBucket, selectInBucketSD]
  apply maxAreaFold_eq_of
  · exact intRange_ne_nil (bucketStart_lt_bucketEnd hw i)
  · intro j hj
    have hjb := mem_intRange.mp hj
    rw [pointAt_map_toRec pd data hp0 hpn,
      pointAt_map_toRec pd data (by omega) (by omega),
      nextBucketAvg_map_toRec pd data hs0 heN hse]
    unfold triangleArea
    dsimp only
    ring
  · intro j
    positivity

theorem lttbIndices_eq_sampleIndices (pd : String → ℚ) (data : List BatteryReading)
    {t : ℤ} (h3 : 3 ≤ t) (hn : t < (data.length : ℤ)) :
    ∀ (count : ℕ) (i prev : ℤ), 0 ≤ i → i + count = t - 2 → 0 ≤ prev →
      prev < (data.length : ℤ) →
      lttbIndices pd (data.map toRec) "timestamp" "voltage"
          (bucketSize (data.length : ℤ) t) (data.length : ℤ) count i prev
        = sampleIndices pd data (bucketSize (data.length : ℤ) t) (data.length : ℤ)
            count i prev := by
  intro count
  induction count with
  | zero =>
    intro i prev _ _ _ _
    rfl
  | succ m ih =>
    intro i prev h0 hsum hp0 hpn
    have hsel := selectInBucket_map_toRec pd data h3 hn h0 (by omega) hp0 hpn
    have hmem := selectInBucket_mem (one_lt_bucketSize h3 hn) pd (data.map toRec)
      "timestamp" "voltage" (data.length : ℤ) prev i
    rw [hsel] at hmem
    have hb1 := one_le_bucketStart (bucketSize_nonneg h3 hn) h0
    have hb2 := bucketEnd_le h3 hn (show i ≤ t - 3 by omega)
    simp only [lttbIndices, sampleIndices]
    rw [hsel]
    congr 1
    exact ih (i + 1) _ (by omega) (by omega) (by omega) (by omega)

theorem downsampleLTTB_cons_some {pd : String → ℚ} {d0 : JSRec} {rest : List JSRec}
    {threshold : ℤ} {xKey? yKey? : Option String} {yK : String}
    (hn : threshold < ((d0 :: rest).length : ℤ))
    (hyk : resolveYKey d0 (resolveXKey d0 xKey?) yKey? = some yK) :
    downsampleLTTB pd (d0 :: rest) threshold xKey? yKey?
      = .ok ((dsIndices pd (d0 :: rest) (resolveXKey d0 xKey?) yK
          (max 3 threshold)).map (jsIndex (d0 :: rest))) := by
  rw [downsampleLTTB_cons _ _ _ _ _ _ hn, hyk]

/-- C7 (amended): the metric-specific sampler agrees with the generic
engine at the fixed configuration (xKey timestamp, yKey voltage) for
every threshold of at least 3, and on every passthrough input; for
thresholds below 3 on the sampling path the two diverge, because
`downsampleLTTB` clamps the threshold to 3 while `sampleData` does
not. -/
theorem sampleData_refines_downsampleLTTB (pd : String → ℚ) (data : List BatteryReading)
    (threshold : ℤ) (h3 : 3 ≤ threshold) :
    downsampleLTTB pd (data.map toRec) threshold (some "timestamp") (some "voltage")
      = .ok ((sampleData pd data threshold).map toRec) := by
  by_cases hle : (data.length : ℤ) ≤ threshold
  · have h1 : downsampleLTTB pd (data.map toRec) threshold (some "timestamp")
        (some "voltage") = .ok (data.map toRec) :=
      downsampleLTTB_passthrough _ _ (by rw [List.length_map]; exact hle)
    rw [h1]
    unfold sampleData
    rw [if_pos hle]
  · have hn : threshold < (data.length : ℤ) := by omega
    cases data with
    | nil =>
      rw [List.length_nil] at hn
      norm_num at hn
      omega
    | cons r rest =>
      have hn' : threshold < (((toRec r :: rest.map toRec) : List JSRec).length : ℤ) := by
        simp only [List.length_cons, List.length_map]
        simp only [List.length_cons] at hn
        exact hn
      rw [List.map_cons, downsampleLTTB_cons_some hn'
        (show resolveYKey (toRec r) (resolveXKey (toRec r) (some "timestamp"))
            (some "voltage") = some "voltage" from rfl),
        max_eq_right h3]
      unfold sampleData
      rw [if_neg (by omega)]
      congr 1
      rw [List.map_map]
      rw [show resolveXKey (toRec r) (some "timestamp") = "timestamp" from rfl]
      unfold dsIndices
      have hlen : ((toRec r :: rest.map toRec) : List JSRec).length = (r :: rest).length := by
        simp only [List.length_cons, List.length_map]
      rw [hlen, ← List.map_cons]
      have hidx := lttbIndices_eq_sampleIndices pd (r :: rest) h3 hn (threshold - 2).toNat
        0 0 (le_refl 0) (by omega) (le_refl 0) (by simp)
      rw [← hidx]
      apply List.map_congr_left
      intro j hj
      have hb : 0 ≤ j ∧ j < ((r :: rest).length : ℤ) := by
        rcases List.mem_append.mp hj with hj | hj
        · rcases List.mem_cons.mp hj with rfl | hj
          · have hpos : 0 < (r :: rest).length := by simp
            omega
          · have := lttbIndices_bounds h3 hn pd ((r :: rest).map toRec) "timestamp"
              "voltage" (threshold - 2).toNat 0 0 (le_refl 0) (by omega) j hj
            omega
        · rw [List.mem_singleton] at hj
          subst hj
          have hpos : 0 < (r :: rest).length := by simp
          omega
      rw [jsIndex_map_toRec hb.1 hb.2]
      rfl

/-- Witness for C7: four battery readings at threshold 3, where the
two samplers agree exactly. -/
theorem sampleData_refines_downsampleLTTB_witness :
    downsampleLTTB pdZero (dataB4.map toRec) 3 (some "timestamp") (some "voltage")
      = .ok ((sampleData pdZero dataB4 3).map toRec) :=
  sampleData_refines_downsampleLTTB pdZero dataB4 3 (by decide)

/-- Counterexample to C7 as frozen (equality for every integer
threshold): at threshold 2 with three readings, sampleData emits two
records while downsampleLTTB clamps to 3 and emits three. -/
theorem sampleData_downsample_clamp_counterexample :
    downsampleLTTB pdZero (dataB3.map toRec) 2 (some "timestamp") (some "voltage")
      ≠ .ok ((sampleData pdZero dataB3 2).map toRec) := by
  with_unfolding_all decide

end EVB
